import Mathlib

/-!
Verification of the wire-protocol engine in `src/parser.rs` (a NATS client
read loop).  Bytes are modelled as `Nat` (values 0-255 in practice; none of
the code depends on an upper bound).  Rust strings produced by
`String::from_utf8_lossy` are modelled as the underlying byte lists: every
byte the protocol inspects (operation names, spaces, digits, quotes, CR, LF)
is ASCII, where the lossy conversion is the identity.

External collaborators are modelled at their interface boundary:
  - `BufReader<TcpStream>` becomes `Reader`: a list of currently buffered
    bytes plus the not-yet-buffered remainder of the stream.  `fill_buf`
    returns the buffered bytes (refilling from the stream when empty),
    `consume` retires bytes from the buffer, `read_until` reads through the
    first LF, `take(n).read_to_end` reads up to `n` bytes (short only at end
    of stream, without error), `read_exact` fails at end of stream.
  - nom streaming combinators (`take_while1`, `take_while`, `take_until`,
    `crlf`) become functions returning `NomR`: success with the remaining
    input, `incomplete` (more input needed), or `fail`.
  - `crossbeam_channel::Sender` becomes `Chan`/`Waiter` carrying an `alive`
    flag: `send` succeeds exactly when the receiving end has not been
    dropped; `.unwrap()` of a failed send is a panic, modelled as the
    `RErr.panicked` outcome.
-/

deriving instance DecidableEq for Except

namespace Nats

/-- Outcome of a read-loop operation.  `ioError` models `io::Error` from the
underlying stream or writer, `parseError` the `ErrorKind::InvalidInput`
error built by `parse_error()`, and `panicked` a thread panic caused by
`.unwrap()` on a failed channel send. -/
inductive RErr where
  | ioError
  | parseError
  | panicked
deriving DecidableEq, Repr

/-- Protocol operation-name bytes, from the constants in `parser.rs`. -/
def INFO : List Nat := [73, 78, 70, 79]

/-- "MSG" -/
def MSG : List Nat := [77, 83, 71]

/-- "PING" -/
def PING : List Nat := [80, 73, 78, 71]

/-- "PONG" -/
def PONG : List Nat := [80, 79, 78, 71]

/-- "-ERR" -/
def ERR : List Nat := [45, 69, 82, 82]

/-- `is_valid_op_char`: uppercase ASCII letter, `-` (45) or `+` (43). -/
def is_valid_op_char (c : Nat) : Bool :=
  (decide (65 ≤ c) && decide (c ≤ 90)) || decide (c = 45) || decide (c = 43)

/-- nom `is_space`: ASCII space (32) or tab (9). -/
def is_space (c : Nat) : Bool := decide (c = 32) || decide (c = 9)

/-- ASCII digit. -/
def isDigitB (c : Nat) : Bool := decide (48 ≤ c) && decide (c ≤ 57)

/-- The CRLF byte pair. -/
def crlfB : List Nat := [13, 10]

/-- Result of a nom streaming combinator: success carries the remaining
unparsed input and the recognized value; `incomplete` means the available
input ended before the combinator could finish; `fail` is a hard parse
failure. -/
inductive NomR (α : Type) where
  | ok : List Nat → α → NomR α
  | incomplete : NomR α
  | fail : NomR α
deriving DecidableEq, Repr

/-- nom streaming `take_while1 p`: consumes the longest run of bytes
satisfying `p`; incomplete when the run reaches the end of the input
(more bytes could extend it), hard failure when the run is empty. -/
def take_while1 (p : Nat → Bool) (input : List Nat) : NomR (List Nat) :=
  let run := input.takeWhile p
  if run.length = input.length then .incomplete
  else if run = [] then .fail
  else .ok (input.dropWhile p) run

/-- nom streaming `take_while p`: like `take_while1` but an empty run is a
success. -/
def take_while (p : Nat → Bool) (input : List Nat) : NomR (List Nat) :=
  let run := input.takeWhile p
  if run.length = input.length then .incomplete
  else .ok (input.dropWhile p) run

/-- Index of the first CRLF pair in a byte list, if any. -/
def findCRLF : List Nat → Option Nat
  | [] => none
  | a :: t =>
    if a = 13 ∧ t.headD 0 = 10 then some 0
    else (findCRLF t).map (· + 1)

/-- nom streaming `take_until "\r\n"`: the bytes before the first CRLF;
incomplete when no CRLF is present in the available input. -/
def take_until_crlf (input : List Nat) : NomR (List Nat) :=
  match findCRLF input with
  | some i => .ok (input.drop i) (input.take i)
  | none => .incomplete

/-- nom streaming `crlf`: recognizes the two-byte CRLF sequence. -/
def crlf (input : List Nat) : NomR (List Nat) :=
  match input with
  | 13 :: 10 :: rest => .ok rest crlfB
  | [] => .incomplete
  | [13] => .incomplete
  | _ => .fail

/-- `control_args`: skip leading spaces, take everything up to the CRLF, then
consume the CRLF; returns the argument bytes. -/
def control_args (input : List Nat) : NomR (List Nat) :=
  match take_while is_space input with
  | .ok i1 _ =>
    match take_until_crlf i1 with
    | .ok i2 args =>
      match crlf i2 with
      | .ok i3 _ => .ok i3 args
      | .incomplete => .incomplete
      | .fail => .fail
    | .incomplete => .incomplete
    | .fail => .fail
  | .incomplete => .incomplete
  | .fail => .fail

/-- `tuple((take_while1(is_valid_op_char), control_args))`: the tokenizer run
by `parse_control_op` against a byte slice.  Returns the remaining input,
the operation-name bytes and the argument bytes. -/
def tokenize (input : List Nat) : NomR (List Nat × List Nat) :=
  match take_while1 is_valid_op_char input with
  | .ok i1 op =>
    match control_args i1 with
    | .ok i2 args => .ok i2 (op, args)
    | .incomplete => .incomplete
    | .fail => .fail
  | .incomplete => .incomplete
  | .fail => .fail

/-- Rust `split(" ")` on a byte string: splits at every single space byte;
consecutive spaces yield empty tokens and the empty string yields one empty
token, exactly as in Rust. -/
def splitSp : List Nat → List (List Nat)
  | [] => [[]]
  | 32 :: t => [] :: splitSp t
  | c :: t =>
    match splitSp t with
    | [] => [[c]]
    | h :: r => (c :: h) :: r

/-- Numeric value of a digit list (most significant first). -/
def digitsVal (ds : List Nat) : Nat := ds.foldl (fun a c => a * 10 + (c - 48)) 0

/-- Largest value of Rust `u32`. -/
def u32Max : Nat := 2 ^ 32 - 1

/-- Largest value of Rust `usize`, on the 64-bit targets this client is
built for. -/
def usizeMax : Nat := 2 ^ 64 - 1

/-- Rust `from_str` for an unsigned integer type with maximum `max`:
an optional leading `+` (byte 43), then one or more ASCII digits, value
within bounds; anything else (empty, stray bytes, overflow) is an error. -/
def rustParseNat (max : Nat) (s : List Nat) : Option Nat :=
  let ds := if s.headD 0 = 43 then s.tail else s
  if ds = [] then none
  else if ds.all isDigitB then
    if digitsVal ds ≤ max then some (digitsVal ds) else none
  else none

/-- `MsgArgs`: decoded MSG header fields.  `subject` and `reply` keep the
raw bytes of their tokens; `mlen` was parsed as `u32`, `sid` as `usize`. -/
structure MsgArgs where
  subject : List Nat
  reply : Option (List Nat)
  mlen : Nat
  sid : Nat
deriving DecidableEq, Repr

/-- `ControlOp`.  Modelled from the spec: `ServerInfo` (defined in the
parent module, not under `src/`) is an opaque structured record; it is
modelled as the raw argument bytes of the INFO line. -/
inductive ControlOp where
  | Msg : MsgArgs → ControlOp
  | Info : List Nat → ControlOp
  | Ping : ControlOp
  | Pong : ControlOp
  | Err : List Nat → ControlOp
  | Unknown : List Nat → ControlOp
deriving DecidableEq, Repr

/-- `parse_msg_args`: split the argument bytes on single spaces; 3 tokens are
`subject sid len`, 4 tokens are `subject sid reply len`; any other arity and
any non-numeric `sid` (usize) or `len` (u32) is a parse error. -/
def parse_msg_args (args : List Nat) : Except RErr ControlOp :=
  let toks := splitSp args
  if toks.length = 3 then
    match rustParseNat usizeMax (toks.getD 1 []), rustParseNat u32Max (toks.getD 2 []) with
    | some sid, some len => .ok (.Msg ⟨toks.getD 0 [], none, len, sid⟩)
    | _, _ => .error .parseError
  else if toks.length = 4 then
    match rustParseNat usizeMax (toks.getD 1 []), rustParseNat u32Max (toks.getD 3 []) with
    | some sid, some len => .ok (.Msg ⟨toks.getD 0 [], some (toks.getD 2 []), len, sid⟩)
    | _, _ => .error .parseError
  else .error .parseError

/-- Rust `trim_matches('\x27')`: remove every leading and every trailing
single-quote byte (39). -/
def trimQuote (l : List Nat) : List Nat :=
  ((l.dropWhile (fun c => c = 39)).reverse.dropWhile (fun c => c = 39)).reverse

/-- `parse_err`: total; the description is the argument bytes with outer
single quotes trimmed. -/
def parse_err (args : List Nat) : ControlOp := .Err (trimQuote args)

/-- `parse_info`.  Modelled from the spec: the handshake record is an opaque
structured (JSON) payload decoded by an external library; it is modelled as
accepting the raw record bytes.  No claim concerns INFO decoding. -/
def parse_info (input : List Nat) : Except RErr ControlOp := .ok (.Info input)

/-- Dispatch on the recognized operation name, as in the `match op` block of
`parse_control_op`. -/
def decodeOp (op args : List Nat) : Except RErr ControlOp :=
  if op = MSG then parse_msg_args args
  else if op = INFO then parse_info args
  else if op = PING then .ok .Ping
  else if op = PONG then .ok .Pong
  else if op = ERR then .ok (parse_err args)
  else .ok (.Unknown op)

/-- `BufReader<TcpStream>`: `buf` is the currently buffered slice (what
`fill_buf` hands out), `rest` the bytes still in the stream.  The stream
ends after `rest` (end of file thereafter). -/
structure Reader where
  buf : List Nat
  rest : List Nat
deriving DecidableEq, Repr

/-- All bytes still available from the reader. -/
def Reader.avail (r : Reader) : List Nat := r.buf ++ r.rest

/-- `fill_buf`: return the buffered bytes; when the buffer is empty, refill
it from the stream first. -/
def fillBuf (r : Reader) : List Nat × Reader :=
  if r.buf = [] then (r.rest, ⟨r.rest, []⟩) else (r.buf, r)

/-- `consume n`: retire `n` bytes from the internal buffer. -/
def Reader.consume (r : Reader) (n : Nat) : Reader := ⟨r.buf.drop n, r.rest⟩

/-- Split a byte list at the first LF (byte 10), the LF going to the first
part; when no LF occurs the whole list is the first part. -/
def splitAtNL : List Nat → List Nat × List Nat
  | [] => ([], [])
  | c :: t =>
    if c = 10 then ([10], t)
    else
      let p := splitAtNL t
      (c :: p.1, p.2)

/-- `read_until(b'\n', buf)`: blocking read through the first LF (or to end
of stream); the bytes read are consumed from the reader and the leftover
stays buffered. -/
def readUntilNL (r : Reader) : List Nat × Reader :=
  let p := splitAtNL (r.buf ++ r.rest)
  (p.1, ⟨p.2, []⟩)

/-- `take(n).read_to_end`: read up to `n` bytes; short only at end of
stream, and a short read is not an error. -/
def readN (r : Reader) (n : Nat) : List Nat × Reader :=
  (r.avail.take n, ⟨r.buf.drop n, r.rest.drop (n - r.buf.length)⟩)

/-- `read_exact` into a 2-byte array: fails with an I/O error when fewer
than 2 bytes remain before end of stream. -/
def readExact2 (r : Reader) : Except RErr (Reader) :=
  match r.avail with
  | _ :: _ :: _ => .ok ⟨r.buf.drop 2, r.rest.drop (2 - r.buf.length)⟩
  | _ => .error .ioError

/-- `parse_control_op`: zero-copy attempt against the buffered bytes; on
`Incomplete`, fall back to a blocking line read and re-parse; decode the
operation; then consume `start_len - stop_len` bytes (`start_len` is 0 in
the fallback, whose line read already consumed its bytes; on every
reachable fallback success the remaining input is empty, so the subtraction
is 0 - 0). -/
def parse_control_op (r : Reader) : Except RErr (ControlOp × Reader) :=
  let p := fillBuf r
  let input := p.1
  let r1 := p.2
  match tokenize input with
  | .ok remaining oa =>
    match decodeOp oa.1 oa.2 with
    | .ok ctrl => .ok (ctrl, r1.consume (input.length - remaining.length))
    | .error e => .error e
  | .fail => .error .parseError
  | .incomplete =>
    let q := readUntilNL r1
    match tokenize q.1 with
    | .ok remaining2 oa =>
      match decodeOp oa.1 oa.2 with
      | .ok ctrl => .ok (ctrl, q.2.consume (0 - remaining2.length))
      | .error e => .error e
    | .incomplete => .error .parseError
    | .fail => .error .parseError

/-- A delivery channel endpoint (`crossbeam_channel::Sender`): `alive` is
true while the receiving end has not been dropped; `send` succeeds exactly
then. -/
structure Chan where
  alive : Bool
deriving DecidableEq, Repr

/-- The subscription registry (`HashMap<usize, Sender<Message>>` behind the
read side of the `RwLock`), modelled as an association list. -/
def subsLookup (subs : List (Nat × Chan)) (sid : Nat) : Option Chan :=
  (subs.find? (fun q => q.1 = sid)).map (fun q => q.2)

/-- `Message`.  Modelled from the spec: the `Message` struct lives in the
parent module, not under `src/`; `process_msg` fills `subject`, `reply` and
`data` and attaches the shared outbound writer exactly when a reply subject
is present, which is modelled by the `hasWriter` flag. -/
structure Message where
  subject : List Nat
  reply : Option (List Nat)
  data : List Nat
  hasWriter : Bool
deriving DecidableEq, Repr

/-- `process_msg`: read exactly `mlen` payload bytes (blocking; short only
at end of stream), then read and discard 2 terminator bytes, then look the
subscription id up; on a hit send the message (panicking if the receiver
was dropped), on a miss silently discard.  Returns the delivered message,
if any, and the advanced reader. -/
def process_msg (subs : List (Nat × Chan)) (r : Reader) (args : MsgArgs) :
    Except RErr (Option Message × Reader) :=
  let p := readN r args.mlen
  let msg : Message := ⟨args.subject, args.reply, p.1, args.reply.isSome⟩
  match readExact2 p.2 with
  | .error e => .error e
  | .ok r2 =>
    match subsLookup subs args.sid with
    | some ch => if ch.alive then .ok (some msg, r2) else .error .panicked
    | none => .ok (none, r2)

/-- One pending-pong waiter (`Sender<bool>` in the `VecDeque`); `id`
identifies the probe so fulfillment order can be observed, `alive` is true
while the receiving end has not been dropped. -/
structure Waiter where
  id : Nat
  alive : Bool
deriving DecidableEq, Repr

/-- `process_pong`: pop the oldest waiter, if any, and fulfill it with
`send(true).unwrap()` (a panic when its receiver was dropped); a PONG with
an empty queue is a no-op.  `log` records fulfilled waiter ids in order. -/
def process_pong (pongs : List Waiter) (log : List Nat) :
    Except RErr (List Waiter × List Nat) :=
  match pongs with
  | [] => .ok ([], log)
  | w :: ws => if w.alive then .ok (ws, log ++ [w.id]) else .error .panicked

/-- Iterate `process_pong` a given number of times, as the read loop does on
consecutive PONG frames. -/
def processPongs : Nat → List Waiter × List Nat → Except RErr (List Waiter × List Nat)
  | 0, s => .ok s
  | n + 1, s =>
    match process_pong s.1 s.2 with
    | .ok s2 => processPongs n s2
    | .error e => .error e

/-- `Outbound`.  Modelled from the spec: the shared outbound writer (defined
in the parent module, not under `src/`) is a single mutually exclusive write
target; a write appends the bytes and a flush pushes them out, and any write
or flush on a failed connection is an I/O error, modelled by the `failing`
flag. -/
structure Outbound where
  log : List Nat
  flushed : Bool
  failing : Bool
deriving DecidableEq, Repr

/-- Write bytes to the outbound writer. -/
def Outbound.writeAll (w : Outbound) (bytes : List Nat) : Except RErr Outbound :=
  if w.failing then .error .ioError
  else .ok ⟨w.log ++ bytes, false, false⟩

/-- Flush the outbound writer. -/
def Outbound.flushW (w : Outbound) : Except RErr Outbound :=
  if w.failing then .error .ioError
  else .ok ⟨w.log, true, false⟩

/-- The bytes of the fixed `PONG\x0d\x0a` reply frame. -/
def pongBytes : List Nat := [80, 79, 78, 71, 13, 10]

/-- `send_pong`: write the fixed PONG frame and flush. -/
def send_pong (w : Outbound) : Except RErr Outbound :=
  match w.writeAll pongBytes with
  | .error e => .error e
  | .ok w1 => w1.flushW

/-- The state owned by the read loop: the reader, the shared writer, the
subscription registry and the pending-pong queue, plus observation logs for
delivered messages and fulfilled pongs. -/
structure LoopState where
  reader : Reader
  writer : Outbound
  subs : List (Nat × Chan)
  pongs : List Waiter
  pongLog : List Nat
  delivered : List (Nat × Message)
deriving DecidableEq, Repr

/-- One iteration of `read_loop`: parse one control operation and dispatch
on it (`Msg` → `process_msg`, `Ping` → `send_pong`, `Pong` →
`process_pong`, anything else is only logged). -/
def readLoopStep (st : LoopState) : Except RErr LoopState :=
  match parse_control_op st.reader with
  | .error e => .error e
  | .ok or =>
    match or.1 with
    | .Msg args =>
      match process_msg st.subs or.2 args with
      | .error e => .error e
      | .ok (some m, r2) =>
        .ok { st with reader := r2, delivered := st.delivered ++ [(args.sid, m)] }
      | .ok (none, r2) => .ok { st with reader := r2 }
    | .Ping =>
      match send_pong st.writer with
      | .error e => .error e
      | .ok w1 => .ok { st with reader := or.2, writer := w1 }
    | .Pong =>
      match process_pong st.pongs st.pongLog with
      | .error e => .error e
      | .ok ql => .ok { st with reader := or.2, pongs := ql.1, pongLog := ql.2 }
    | _ => .ok { st with reader := or.2 }

/-- `read_loop`, cut off after `fuel` iterations (the Rust loop is infinite
until an error ends it; any error outcome propagates out of the loop). -/
def read_loop : Nat → LoopState → Except RErr LoopState
  | 0, st => .ok st
  | n + 1, st =>
    match readLoopStep st with
    | .ok st2 => read_loop n st2
    | .error e => .error e

/-- A well-formed control line `op ++ pad ++ args ++ CRLF`: a nonempty
operation-name run not extendable into the padding, space padding not
extendable into the arguments, and no CRLF inside the arguments — exactly
the shape the tokenizer recognizes. -/
def wfLine (op pad args : List Nat) : Prop :=
  op ≠ [] ∧
  (∀ x ∈ op, is_valid_op_char x = true) ∧
  (∀ x ∈ pad, is_space x = true) ∧
  is_valid_op_char ((pad ++ args ++ crlfB).headD 0) = false ∧
  is_space (args.headD 48) = false ∧
  findCRLF args = none

instance (op pad args : List Nat) : Decidable (wfLine op pad args) := by
  unfold wfLine; infer_instance

/-! Helper lemmas about the tokenizer primitives. -/

theorem valid_op_char_ne {x : Nat} (hx : is_valid_op_char x = true) : x ≠ 10 ∧ x ≠ 13 := by
  constructor <;> rintro rfl <;> exact absurd hx (by decide)

theorem space_char_ne {x : Nat} (hx : is_space x = true) : x ≠ 10 ∧ x ≠ 13 := by
  constructor <;> rintro rfl <;> exact absurd hx (by decide)

theorem headD_append_left (X Z : List Nat) (d : Nat) (h : X ≠ []) :
    (X ++ Z).headD d = X.headD d := by
  cases X with
  | nil => exact absurd rfl h
  | cons a t => simp

theorem takeWhile_append_stop (p : Nat → Bool) (l1 l2 : List Nat)
    (h1 : ∀ x ∈ l1, p x = true) (h2 : ∀ x, l2.head? = some x → p x = false) :
    (l1 ++ l2).takeWhile p = l1 ∧ (l1 ++ l2).dropWhile p = l2 := by
  induction l1 with
  | nil =>
    cases l2 with
    | nil => simp
    | cons a t =>
      have ha := h2 a rfl
      simp [List.takeWhile_cons, List.dropWhile_cons, ha]
  | cons a t ih =>
    have ha : p a = true := h1 a (List.mem_cons_self a t)
    have ih2 := ih (fun x hx => h1 x (List.mem_cons_of_mem a hx))
    simp [List.takeWhile_cons, List.dropWhile_cons, ha, ih2.1, ih2.2]

theorem findCRLF_cons (a : Nat) (t : List Nat) :
    findCRLF (a :: t) = if a = 13 ∧ t.headD 0 = 10 then some 0
      else (findCRLF t).map (· + 1) := rfl

theorem findCRLF_append_crlf (args trail : List Nat) (h : findCRLF args = none) :
    findCRLF (args ++ 13 :: 10 :: trail) = some args.length := by
  induction args with
  | nil => simp [findCRLF]
  | cons a t ih =>
    rw [findCRLF_cons] at h
    by_cases hc : a = 13 ∧ t.headD 0 = 10
    · rw [if_pos hc] at h; simp at h
    · rw [if_neg hc] at h
      have ht : findCRLF t = none := by
        cases he : findCRLF t with
        | none => rfl
        | some i => rw [he] at h; simp at h
      rw [List.cons_append, findCRLF_cons]
      cases t with
      | nil =>
        rw [if_neg (by simp)]
        have h0 : findCRLF (13 :: 10 :: trail) = some 0 := by
          rw [findCRLF_cons, if_pos (by simp)]
        simp [h0]
      | cons b t2 =>
        have hc2 : ¬ (a = 13 ∧ ((b :: t2) ++ 13 :: 10 :: trail).headD 0 = 10) := by
          simp only [List.cons_append, List.headD_cons]
          simpa using hc
        rw [if_neg hc2, ih ht]
        simp

theorem findCRLF_append_none (l s : List Nat) (h : findCRLF (l ++ s) = none) :
    findCRLF l = none := by
  induction l with
  | nil => simp [findCRLF]
  | cons a t ih =>
    rw [List.cons_append] at h
    rw [findCRLF_cons] at h ⊢
    by_cases hc2 : a = 13 ∧ (t ++ s).headD 0 = 10
    · rw [if_pos hc2] at h; simp at h
    · rw [if_neg hc2] at h
      have hts : findCRLF (t ++ s) = none := by
        cases he : findCRLF (t ++ s) with
        | none => rfl
        | some i => rw [he] at h; simp at h
      have hc : ¬ (a = 13 ∧ t.headD 0 = 10) := by
        intro hcc
        apply hc2
        refine ⟨hcc.1, ?_⟩
        cases t with
        | nil => simp at hcc
        | cons b t2 => simpa using hcc.2
      rw [if_neg hc, ih hts]
      simp

theorem findCRLF_append13 (l : List Nat) (h : findCRLF l = none) :
    findCRLF (l ++ [13]) = none := by
  induction l with
  | nil => simp [findCRLF]
  | cons a t ih =>
    rw [findCRLF_cons] at h
    by_cases hc : a = 13 ∧ t.headD 0 = 10
    · rw [if_pos hc] at h; simp at h
    · rw [if_neg hc] at h
      have ht : findCRLF t = none := by
        cases he : findCRLF t with
        | none => rfl
        | some i => rw [he] at h; simp at h
      have hc2 : ¬ (a = 13 ∧ (t ++ [13]).headD 0 = 10) := by
        cases t with
        | nil => simp
        | cons b t2 => simp only [List.cons_append, List.headD_cons]; simpa using hc
      rw [List.cons_append, findCRLF_cons, if_neg hc2, ih ht]
      simp

theorem findCRLF_append_safe (l1 l2 : List Nat) (h1 : ∀ x ∈ l1, x ≠ 10 ∧ x ≠ 13)
    (h2 : findCRLF l2 = none) : findCRLF (l1 ++ l2) = none := by
  induction l1 with
  | nil => simpa
  | cons a t ih =>
    have ha := h1 a (List.mem_cons_self a t)
    have ht : ∀ x ∈ t, x ≠ 10 ∧ x ≠ 13 := fun x hx => h1 x (List.mem_cons_of_mem a hx)
    rw [List.cons_append, findCRLF_cons]
    have hc : ¬ (a = 13 ∧ (t ++ l2).headD 0 = 10) := fun hcc => ha.2 hcc.1
    rw [if_neg hc, ih ht]
    simp

theorem findCRLF_cons_none {a : Nat} {t : List Nat} (h : findCRLF (a :: t) = none) :
    findCRLF t = none := by
  rw [findCRLF_cons] at h
  by_cases hc : a = 13 ∧ t.headD 0 = 10
  · rw [if_pos hc] at h; simp at h
  · rw [if_neg hc] at h
    cases he : findCRLF t with
    | none => rfl
    | some i => rw [he] at h; simp at h

theorem findCRLF_dropWhile_none (p : Nat → Bool) (l : List Nat) (h : findCRLF l = none) :
    findCRLF (l.dropWhile p) = none := by
  induction l with
  | nil => simpa
  | cons a t ih =>
    by_cases hp : p a
    · rw [List.dropWhile_cons_of_pos hp]
      exact ih (findCRLF_cons_none h)
    · rwa [List.dropWhile_cons_of_neg hp]

theorem splitAtNL_cons (c : Nat) (t : List Nat) :
    splitAtNL (c :: t) = if c = 10 then ([10], t)
      else (c :: (splitAtNL t).1, (splitAtNL t).2) := rfl

theorem splitAtNL_append (Y t : List Nat) (h : ∀ x ∈ Y, x ≠ 10) :
    splitAtNL (Y ++ 10 :: t) = (Y ++ [10], t) := by
  induction Y with
  | nil => simp [splitAtNL]
  | cons a s ih =>
    have ha := h a (List.mem_cons_self a s)
    have hs : ∀ x ∈ s, x ≠ 10 := fun x hx => h x (List.mem_cons_of_mem a hx)
    rw [List.cons_append, splitAtNL_cons, if_neg ha, ih hs]
    simp

/-- On a well-formed control line the tokenizer succeeds, recognizes exactly
the operation name and argument bytes, and leaves exactly the bytes after
the CRLF unparsed. -/
theorem tokenize_line (op pad args : List Nat) (h : wfLine op pad args) (trail : List Nat) :
    tokenize (op ++ (pad ++ (args ++ (13 :: 10 :: trail)))) = .ok trail (op, args) := by
  obtain ⟨h1, h2, h3, h4, h5, h6⟩ := h
  set L2 := pad ++ (args ++ (13 :: 10 :: trail)) with hL2
  have hXne : (pad ++ args) ++ crlfB ≠ [] := by simp [crlfB]
  have hL2eq : L2 = ((pad ++ args) ++ crlfB) ++ trail := by
    simp [hL2, crlfB, List.append_assoc]
  have hL2ne : L2 ≠ [] := by
    rw [hL2eq]
    simp [crlfB]
  have hL2head : ∀ x, L2.head? = some x → is_valid_op_char x = false := by
    intro x hx
    have hxd : L2.headD 0 = x := by
      cases hcc : L2 with
      | nil => rw [hcc] at hx; simp at hx
      | cons a t => rw [hcc] at hx; simp at hx; simp [hcc, hx]
    have : L2.headD 0 = ((pad ++ args) ++ crlfB).headD 0 := by
      rw [hL2eq, headD_append_left _ _ _ hXne]
    rw [hxd] at this
    rw [this]
    simpa [List.append_assoc] using h4
  have hsplit1 := takeWhile_append_stop is_valid_op_char op L2 h2 hL2head
  have e1 : take_while1 is_valid_op_char (op ++ L2) = .ok L2 op := by
    have hL2pos : 0 < L2.length := List.length_pos.mpr hL2ne
    have hlen : ¬ ((op ++ L2).takeWhile is_valid_op_char).length = (op ++ L2).length := by
      rw [hsplit1.1, List.length_append]
      omega
    unfold take_while1
    rw [if_neg hlen, if_neg (by rw [hsplit1.1]; exact h1), hsplit1.1, hsplit1.2]
  set M := args ++ (13 :: 10 :: trail) with hM
  have hMne : M ≠ [] := by
    rw [hM]
    cases args <;> simp
  have hMhead : ∀ x, M.head? = some x → is_space x = false := by
    intro x hx
    cases hargs : args with
    | nil =>
      rw [hM, hargs] at hx
      simp at hx
      rw [← hx]
      decide
    | cons a t =>
      rw [hM, hargs] at hx
      simp at hx
      rw [← hx]
      simpa [hargs] using h5
  have hsplit2 := takeWhile_append_stop is_space pad M h3 hMhead
  have e2 : take_while is_space L2 = .ok M pad := by
    have hMpos : 0 < M.length := List.length_pos.mpr hMne
    have hlen : ¬ ((pad ++ M).takeWhile is_space).length = (pad ++ M).length := by
      rw [hsplit2.1, List.length_append]
      omega
    rw [hL2]
    unfold take_while
    rw [if_neg hlen, hsplit2.1, hsplit2.2]
  have e3 : take_until_crlf M = .ok (13 :: 10 :: trail) args := by
    have hfind : findCRLF M = some args.length := by
      rw [hM]
      exact findCRLF_append_crlf args trail h6
    simp only [take_until_crlf, hfind]
    rw [hM, List.drop_left, List.take_left]
  have e4 : crlf (13 :: 10 :: trail) = .ok trail crlfB := rfl
  have e5 : control_args L2 = .ok trail args := by
    simp only [control_args, e2, e3, e4]
  simp only [tokenize, e1, e5]

/-- On a nonempty proper prefix of a well-formed control line the tokenizer
reports incomplete: it neither fails hard nor produces an operation. -/
theorem tokenize_prefix_incomplete (op pad args b1 s : List Nat) (h : wfLine op pad args)
    (hne : b1 ≠ []) (hs : s ≠ [])
    (heq : b1 ++ s = op ++ (pad ++ (args ++ crlfB))) :
    tokenize b1 = .incomplete := by
  obtain ⟨h1, h2, h3, h4, h5, h6⟩ := h
  -- b1 is a prefix of the line with the final LF removed, hence contains no CRLF
  set Z := op ++ (pad ++ (args ++ [13])) with hZ
  have hline : op ++ (pad ++ (args ++ crlfB)) = Z ++ [10] := by
    simp [hZ, crlfB, List.append_assoc]
  have hlen1 : b1.length + s.length = Z.length + 1 := by
    have hcongr := congrArg List.length heq
    rw [hline] at hcongr
    simpa [List.length_append] using hcongr
  have hspos : 0 < s.length := List.length_pos.mpr hs
  have hble : b1.length ≤ Z.length := by omega
  have hb1take : b1 = Z.take b1.length := by
    have ht : (b1 ++ s).take b1.length = b1 := List.take_left b1 s
    rw [heq, hline] at ht
    rw [← ht, List.take_append_eq_append_take]
    have : b1.length - Z.length = 0 := by omega
    rw [this]
    simp
  have hZnone : findCRLF Z = none := by
    rw [hZ]
    apply findCRLF_append_safe
    · exact fun x hx => valid_op_char_ne (h2 x hx)
    · apply findCRLF_append_safe
      · exact fun x hx => space_char_ne (h3 x hx)
      · exact findCRLF_append13 args h6
  have hbnone : findCRLF b1 = none := by
    have hsp : b1 ++ Z.drop b1.length = Z := by
      nth_rewrite 1 [hb1take]
      exact List.take_append_drop b1.length Z
    exact findCRLF_append_none _ _ (by rw [hsp]; exact hZnone)
  -- evaluate the tokenizer on b1
  by_cases hr : (b1.takeWhile is_valid_op_char).length = b1.length
  · unfold tokenize take_while1
    rw [if_pos hr]
  · obtain ⟨o, ot, hop⟩ : ∃ o ot, op = o :: ot := by
      cases op with
      | nil => exact absurd rfl h1
      | cons o ot => exact ⟨o, ot, rfl⟩
    obtain ⟨x, t1, hb1⟩ : ∃ x t1, b1 = x :: t1 := by
      cases b1 with
      | nil => exact absurd rfl hne
      | cons x t1 => exact ⟨x, t1, rfl⟩
    have hxo : x = o := by
      rw [hb1, hop] at heq
      simpa using congrArg (fun l => l.headD 0) heq
    have hpx : is_valid_op_char x = true := by
      rw [hxo]
      exact h2 o (by rw [hop]; exact List.mem_cons_self o ot)
    have hrun_ne : ¬ b1.takeWhile is_valid_op_char = [] := by
      rw [hb1, List.takeWhile_cons_of_pos hpx]
      simp
    have e1 : take_while1 is_valid_op_char b1 =
        .ok (b1.dropWhile is_valid_op_char) (b1.takeWhile is_valid_op_char) := by
      unfold take_while1
      rw [if_neg hr, if_neg hrun_ne]
    have hc1none : findCRLF (b1.dropWhile is_valid_op_char) = none :=
      findCRLF_dropWhile_none _ _ hbnone
    by_cases hr2 : ((b1.dropWhile is_valid_op_char).takeWhile is_space).length =
        (b1.dropWhile is_valid_op_char).length
    · have e2 : take_while is_space (b1.dropWhile is_valid_op_char) = .incomplete := by
        unfold take_while
        rw [if_pos hr2]
      simp only [tokenize, e1, control_args, e2]
    · have e2 : take_while is_space (b1.dropWhile is_valid_op_char) =
          .ok ((b1.dropWhile is_valid_op_char).dropWhile is_space)
            ((b1.dropWhile is_valid_op_char).takeWhile is_space) := by
        unfold take_while
        rw [if_neg hr2]
      have hc2none :
          findCRLF ((b1.dropWhile is_valid_op_char).dropWhile is_space) = none :=
        findCRLF_dropWhile_none _ _ hc1none
      have e3 : take_until_crlf ((b1.dropWhile is_valid_op_char).dropWhile is_space) =
          .incomplete := by
        unfold take_until_crlf
        rw [hc2none]
      simp only [tokenize, e1, control_args, e2, e3]

/-- Zero-copy path: when the buffered bytes begin with a well-formed,
decodable control line, `parse_control_op` returns its operation and retires
exactly the bytes of the line, leaving the trailing bytes buffered. -/
theorem parse_zero_copy (op pad args : List Nat) (ctrl : ControlOp)
    (hwf : wfLine op pad args) (hdec : decodeOp op args = .ok ctrl)
    (trail rrest : List Nat) :
    parse_control_op ⟨op ++ (pad ++ (args ++ (13 :: 10 :: trail))), rrest⟩ =
      .ok (ctrl, ⟨trail, rrest⟩) := by
  have hbufne : op ++ (pad ++ (args ++ (13 :: 10 :: trail))) ≠ [] := by
    cases hop : op with
    | nil => exact absurd hop hwf.1
    | cons o ot => simp
  have hbuf : op ++ (pad ++ (args ++ (13 :: 10 :: trail))) =
      (op ++ (pad ++ (args ++ crlfB))) ++ trail := by
    simp [crlfB, List.append_assoc]
  have hdrop : (op ++ (pad ++ (args ++ (13 :: 10 :: trail)))).drop
      ((op ++ (pad ++ (args ++ (13 :: 10 :: trail)))).length - trail.length) = trail := by
    rw [hbuf, List.length_append, Nat.add_sub_cancel, List.drop_left]
  simp only [parse_control_op, fillBuf]
  rw [if_neg hbufne]
  simp only [tokenize_line op pad args hwf trail, hdec, Reader.consume, hdrop]

/-- Fallback path: when only a nonempty proper prefix of a well-formed,
decodable control line containing no bare LF is buffered, the zero-copy
attempt is incomplete and the blocking line read plus re-parse return the
same operation, consuming exactly the line. -/
theorem parse_fallback (op pad args : List Nat) (ctrl : ControlOp)
    (hwf : wfLine op pad args) (hdec : decodeOp op args = .ok ctrl)
    (hargs10 : ∀ x ∈ args, x ≠ 10) (b1 b2 trail : List Nat) (hne : b1 ≠ [])
    (hlt : b1.length < (op ++ (pad ++ (args ++ crlfB))).length)
    (heq : b1 ++ b2 = (op ++ (pad ++ (args ++ crlfB))) ++ trail) :
    parse_control_op ⟨b1, b2⟩ = .ok (ctrl, ⟨trail, []⟩) := by
  set A := op ++ (pad ++ (args ++ crlfB)) with hA
  have hZ : A = (op ++ (pad ++ (args ++ [13]))) ++ [10] := by
    simp [hA, crlfB, List.append_assoc]
  have hble : b1.length ≤ A.length := le_of_lt hlt
  have hb1take : b1 = A.take b1.length := by
    have ht : (b1 ++ b2).take b1.length = b1 := List.take_left b1 b2
    rw [heq] at ht
    rw [← ht, List.take_append_eq_append_take]
    have h0 : b1.length - A.length = 0 := by omega
    rw [h0]
    simp
  have hsp : b1 ++ A.drop b1.length = A := by
    nth_rewrite 1 [hb1take]
    exact List.take_append_drop b1.length A
  have hsne : A.drop b1.length ≠ [] := by
    intro hcon
    have hl := congrArg List.length hcon
    simp only [List.length_drop, List.length_nil] at hl
    omega
  have hinc : tokenize b1 = .incomplete :=
    tokenize_prefix_incomplete op pad args b1 (A.drop b1.length) hwf hne hsne
      (by rw [hsp, hA])
  have hnol : ∀ x ∈ op ++ (pad ++ (args ++ [13])), x ≠ 10 := by
    intro x hx
    rcases List.mem_append.mp hx with h | hx2
    · exact (valid_op_char_ne (hwf.2.1 x h)).1
    rcases List.mem_append.mp hx2 with h | hx3
    · exact (space_char_ne (hwf.2.2.1 x h)).1
    rcases List.mem_append.mp hx3 with h | h
    · exact hargs10 x h
    · simp at h
      omega
  have havail : b1 ++ b2 = (op ++ (pad ++ (args ++ [13]))) ++ 10 :: trail := by
    rw [heq, hZ]
    simp [List.append_assoc]
  have hsplit : splitAtNL (b1 ++ b2) = ((op ++ (pad ++ (args ++ [13]))) ++ [10], trail) := by
    rw [havail]
    exact splitAtNL_append _ trail hnol
  have hAeq : (op ++ (pad ++ (args ++ [13]))) ++ [10] =
      op ++ (pad ++ (args ++ (13 :: 10 :: ([] : List Nat)))) := by
    simp [List.append_assoc]
  simp only [parse_control_op, fillBuf]
  rw [if_neg hne]
  simp only [hinc, readUntilNL, hsplit, hAeq,
    tokenize_line op pad args hwf [], hdec, Reader.consume]
  simp

/-- C1 (corrected): on a stream whose buffered bytes begin with a
well-formed, decodable control line, `parse_control_op` produces exactly
that one operation and retires exactly the bytes of the line, leaving the
following bytes available (zero-copy path); and when only a nonempty proper
prefix of such a line is buffered and the line contains no LF byte before
its terminator, the fallback path produces the same operation, the blocking
line read consuming exactly the line and the final accounting retiring no
further bytes.  (The original claim, with no restriction on interior LF
bytes in the split case, is refuted by `parse_control_op_split_loses_line`.) -/
theorem parse_control_op_exact_consumption (op pad args : List Nat) (ctrl : ControlOp)
    (hwf : wfLine op pad args) (hdec : decodeOp op args = .ok ctrl) :
    (∀ trail rrest,
      parse_control_op ⟨op ++ (pad ++ (args ++ (13 :: 10 :: trail))), rrest⟩ =
        .ok (ctrl, ⟨trail, rrest⟩)) ∧
    (∀ b1 b2 trail, (∀ x ∈ args, x ≠ 10) → b1 ≠ [] →
      b1.length < (op ++ (pad ++ (args ++ crlfB))).length →
      b1 ++ b2 = (op ++ (pad ++ (args ++ crlfB))) ++ trail →
      parse_control_op ⟨b1, b2⟩ = .ok (ctrl, ⟨trail, []⟩)) := by
  refine ⟨fun trail rrest => parse_zero_copy op pad args ctrl hwf hdec trail rrest,
    fun b1 b2 trail hargs10 hne hlt heq =>
      parse_fallback op pad args ctrl hwf hdec hargs10 b1 b2 trail hne hlt heq⟩

/-- C1 counterexample: the available bytes hold the well-formed, decodable
control line `-ERR \x27a\x0ab\x27\x0d\x0a` (a bare LF inside the argument
bytes), split so that only `-ERR` is buffered; `parse_control_op` returns a
parse error instead of producing the operation: the fallback line read
stops at the bare LF before the terminator. -/
theorem parse_control_op_split_loses_line :
    wfLine ERR [32] [39, 97, 10, 98, 39] ∧
    decodeOp ERR [39, 97, 10, 98, 39] = .ok (.Err [97, 10, 98]) ∧
    (⟨[45, 69, 82, 82], [32, 39, 97, 10, 98, 39, 13, 10]⟩ : Reader).avail =
      ERR ++ ([32] ++ ([39, 97, 10, 98, 39] ++ crlfB)) ∧
    parse_control_op ⟨[45, 69, 82, 82], [32, 39, 97, 10, 98, 39, 13, 10]⟩ =
      .error .parseError :=
  ⟨by decide, by decide, by decide, by decide⟩

/-- C1 witness: the line `PING\x0d\x0a` followed by one byte parses with
exact consumption both fully buffered and split after two bytes. -/
theorem parse_control_op_exact_consumption_witness :
    parse_control_op ⟨PING ++ ([] ++ ([] ++ (13 :: 10 :: [90]))), []⟩ =
      .ok (.Ping, ⟨[90], []⟩) ∧
    parse_control_op ⟨[80, 73], [78, 71, 13, 10, 88]⟩ = .ok (.Ping, ⟨[88], []⟩) := by
  have h := parse_control_op_exact_consumption PING [] [] .Ping (by decide) (by decide)
  exact ⟨h.1 [90] [], h.2 [80, 73] [78, 71, 13, 10, 88] [88] (by decide) (by decide)
    (by decide) (by decide)⟩

/-- C3 (corrected): for a well-formed, decodable control line containing no
LF byte before its terminator, parsing it split across two chunks (a
nonempty proper prefix buffered, the remainder still in the stream) goes
through the fallback and yields exactly the same `ControlOperation`, and the
same reader state, as parsing it delivered whole via the zero-copy path.
(Without the no-interior-LF restriction the equivalence fails:
`split_line_not_equiv`.) -/
theorem split_line_equals_whole (op pad args : List Nat) (ctrl : ControlOp)
    (hwf : wfLine op pad args) (hdec : decodeOp op args = .ok ctrl)
    (hargs10 : ∀ x ∈ args, x ≠ 10) :
    ∀ b1 b2 trail, b1 ≠ [] →
      b1.length < (op ++ (pad ++ (args ++ crlfB))).length →
      b1 ++ b2 = (op ++ (pad ++ (args ++ crlfB))) ++ trail →
      parse_control_op ⟨b1, b2⟩ =
        parse_control_op ⟨(op ++ (pad ++ (args ++ crlfB))) ++ trail, []⟩ ∧
      parse_control_op ⟨b1, b2⟩ = .ok (ctrl, ⟨trail, []⟩) := by
  intro b1 b2 trail hne hlt heq
  have hwhole : (op ++ (pad ++ (args ++ crlfB))) ++ trail =
      op ++ (pad ++ (args ++ (13 :: 10 :: trail))) := by
    simp [crlfB, List.append_assoc]
  have h1 : parse_control_op ⟨(op ++ (pad ++ (args ++ crlfB))) ++ trail, []⟩ =
      .ok (ctrl, ⟨trail, []⟩) := by
    rw [hwhole]
    exact parse_zero_copy op pad args ctrl hwf hdec trail []
  have h2 : parse_control_op ⟨b1, b2⟩ = .ok (ctrl, ⟨trail, []⟩) :=
    parse_fallback op pad args ctrl hwf hdec hargs10 b1 b2 trail hne hlt heq
  exact ⟨h2.trans h1.symm, h2⟩

/-- C3 counterexample: the control line `MSG x\x0ay 7 0\x0d\x0a` (a bare LF
inside the subject token) parses to a message operation when delivered in
one chunk via the zero-copy path, but the identical bytes split after
`MSG x` make the zero-copy attempt incomplete and the fallback fail with a
parse error: the two branches are not behaviorally equivalent. -/
theorem split_line_not_equiv :
    parse_control_op ⟨[77, 83, 71, 32, 120, 10, 121, 32, 55, 32, 48, 13, 10], []⟩ =
      .ok (.Msg ⟨[120, 10, 121], none, 0, 7⟩, ⟨[], []⟩) ∧
    parse_control_op ⟨[77, 83, 71, 32, 120], [10, 121, 32, 55, 32, 48, 13, 10]⟩ =
      .error .parseError :=
  ⟨by decide, by decide⟩

/-- C3 witness: the line `PONG\x0d\x0a` followed by one byte, split after
two bytes, parses identically to the whole line. -/
theorem split_line_equals_whole_witness :
    parse_control_op ⟨[80, 79], [78, 71, 13, 10, 66]⟩ =
      parse_control_op ⟨(PONG ++ ([] ++ ([] ++ crlfB))) ++ [66], []⟩ ∧
    parse_control_op ⟨[80, 79], [78, 71, 13, 10, 66]⟩ = .ok (.Pong, ⟨[66], []⟩) :=
  split_line_equals_whole PONG [] [] .Pong (by decide) (by decide) (by decide)
    [80, 79] [78, 71, 13, 10, 66] [66] (by decide) (by decide) (by decide)

/-- Advancing the reader by `n` bytes drops `n` bytes from the available
stream. -/
theorem readN_avail (r : Reader) (n : Nat) : ((readN r n).2).avail = r.avail.drop n := by
  simp [readN, Reader.avail, List.drop_append_eq_append_drop]

/-- A successful 2-byte exact read requires 2 available bytes and drops
exactly those 2 bytes. -/
theorem readExact2_ok {r : Reader} {r2 : Reader} (h : readExact2 r = .ok r2) :
    2 ≤ r.avail.length ∧ r2.avail = r.avail.drop 2 := by
  unfold readExact2 at h
  cases hav : r.avail with
  | nil =>
    simp only [hav] at h
    exact (Except.noConfusion h)
  | cons a t0 =>
    cases t0 with
    | nil =>
      simp only [hav] at h
      exact (Except.noConfusion h)
    | cons b t =>
      simp only [hav] at h
      have h2 : r2 = ⟨r.buf.drop 2, r.rest.drop (2 - r.buf.length)⟩ := (Except.ok.inj h).symm
      have hra : r.buf ++ r.rest = a :: b :: t := hav
      refine ⟨by simp, ?_⟩
      rw [h2]
      show (⟨r.buf.drop 2, r.rest.drop (2 - r.buf.length)⟩ : Reader).avail = _
      calc (⟨r.buf.drop 2, r.rest.drop (2 - r.buf.length)⟩ : Reader).avail
          = (r.buf ++ r.rest).drop 2 := by
            simp [Reader.avail, List.drop_append_eq_append_drop]
        _ = (a :: b :: t).drop 2 := by rw [hra]

/-- A failed 2-byte exact read is exactly the end-of-stream I/O error. -/
theorem readExact2_error {r : Reader} {e : RErr} (h : readExact2 r = .error e) :
    e = .ioError := by
  unfold readExact2 at h
  cases hav : r.avail with
  | nil =>
    simp only [hav] at h
    exact (Except.error.inj h).symm
  | cons a t0 =>
    cases t0 with
    | nil =>
      simp only [hav] at h
      exact (Except.error.inj h).symm
    | cons b t =>
      simp only [hav] at h
      exact (Except.noConfusion h)

/-- C2: whenever `process_msg` completes without error, the payload read for
the message holds exactly the declared number of bytes, taken verbatim from
the stream regardless of content, and exactly two further bytes are
consumed and discarded after it: the reader ends exactly
`declared length + 2` bytes further along. -/
theorem process_msg_exact_payload (subs : List (Nat × Chan)) (r : Reader) (args : MsgArgs)
    (res : Option Message) (r2 : Reader)
    (h : process_msg subs r args = .ok (res, r2)) :
    args.mlen + 2 ≤ r.avail.length ∧
    (∀ m, res = some m → m.data = r.avail.take args.mlen ∧ m.data.length = args.mlen) ∧
    r2.avail = r.avail.drop (args.mlen + 2) := by
  simp only [process_msg] at h
  cases he : readExact2 (readN r args.mlen).2 with
  | error e =>
    simp only [he] at h
    exact (Except.noConfusion h)
  | ok r3 =>
    simp only [he] at h
    obtain ⟨hlen2, hdrop2⟩ := readExact2_ok he
    rw [readN_avail] at hlen2 hdrop2
    have hlen : args.mlen + 2 ≤ r.avail.length := by
      rw [List.length_drop] at hlen2
      omega
    have hav3 : r3.avail = r.avail.drop (args.mlen + 2) := by
      rw [hdrop2, List.drop_drop]
    have hdata : (readN r args.mlen).1 = r.avail.take args.mlen := rfl
    have hdlen : ((readN r args.mlen).1).length = args.mlen := by
      rw [hdata, List.length_take]
      omega
    cases hl : subsLookup subs args.sid with
    | some ch =>
      simp only [hl] at h
      cases hal : ch.alive with
      | false => simp [hal] at h
      | true =>
        simp only [hal, if_true] at h
        have hres := Prod.mk.injEq _ _ _ _ ▸ (Except.ok.inj h)
        have hr1 : some (⟨args.subject, args.reply, (readN r args.mlen).1,
            args.reply.isSome⟩ : Message) = res := congrArg Prod.fst (Except.ok.inj h)
        have hr2 : r3 = r2 := congrArg Prod.snd (Except.ok.inj h)
        refine ⟨hlen, ?_, by rw [← hr2]; exact hav3⟩
        intro m hm
        rw [← hr1] at hm
        cases hm
        exact ⟨hdata, hdlen⟩
    | none =>
      simp only [hl] at h
      have hr1 : (none : Option Message) = res := congrArg Prod.fst (Except.ok.inj h)
      have hr2 : r3 = r2 := congrArg Prod.snd (Except.ok.inj h)
      refine ⟨hlen, ?_, by rw [← hr2]; exact hav3⟩
      intro m hm
      rw [← hr1] at hm
      cases hm

/-- C2 witness: a 5-byte payload that itself contains a CRLF pair is
delivered verbatim, and the two terminator bytes after it are discarded. -/
theorem process_msg_exact_payload_witness :
    (5 : Nat) + 2 ≤ (⟨[104, 13, 10, 10, 105, 13, 10, 77], []⟩ : Reader).avail.length ∧
    (∀ m, (some (⟨[102], none, [104, 13, 10, 10, 105], false⟩ : Message) = some m) →
      m.data = (⟨[104, 13, 10, 10, 105, 13, 10, 77], []⟩ : Reader).avail.take 5 ∧
      m.data.length = 5) ∧
    (⟨[77], []⟩ : Reader).avail =
      (⟨[104, 13, 10, 10, 105, 13, 10, 77], []⟩ : Reader).avail.drop (5 + 2) :=
  process_msg_exact_payload [(5, ⟨true⟩)] ⟨[104, 13, 10, 10, 105, 13, 10, 77], []⟩
    ⟨[102], none, 5, 5⟩ (some ⟨[102], none, [104, 13, 10, 10, 105], false⟩) ⟨[77], []⟩
    (by decide)

/-- C4: splitting the MSG argument bytes on single spaces, exactly 3 tokens
decode to subject, subscription id and length with no reply subject;
exactly 4 tokens decode with the 3rd token as the reply subject; any other
token count is a parse error, as is a subscription-id or length token that
the unsigned integer parser rejects. -/
theorem parse_msg_args_arity (args : List Nat) :
    ((splitSp args).length = 3 →
      (∀ sid len, rustParseNat usizeMax ((splitSp args).getD 1 []) = some sid →
        rustParseNat u32Max ((splitSp args).getD 2 []) = some len →
        parse_msg_args args = .ok (.Msg ⟨(splitSp args).getD 0 [], none, len, sid⟩)) ∧
      (rustParseNat usizeMax ((splitSp args).getD 1 []) = none →
        parse_msg_args args = .error .parseError) ∧
      (rustParseNat u32Max ((splitSp args).getD 2 []) = none →
        parse_msg_args args = .error .parseError)) ∧
    ((splitSp args).length = 4 →
      (∀ sid len, rustParseNat usizeMax ((splitSp args).getD 1 []) = some sid →
        rustParseNat u32Max ((splitSp args).getD 3 []) = some len →
        parse_msg_args args = .ok (.Msg ⟨(splitSp args).getD 0 [],
          some ((splitSp args).getD 2 []), len, sid⟩)) ∧
      (rustParseNat usizeMax ((splitSp args).getD 1 []) = none →
        parse_msg_args args = .error .parseError) ∧
      (rustParseNat u32Max ((splitSp args).getD 3 []) = none →
        parse_msg_args args = .error .parseError)) ∧
    ((splitSp args).length ≠ 3 → (splitSp args).length ≠ 4 →
      parse_msg_args args = .error .parseError) := by
  refine ⟨fun h3 => ⟨?_, ?_, ?_⟩, fun h4 => ⟨?_, ?_, ?_⟩, fun h3 h4 => ?_⟩
  · intro sid len hsid hlen
    simp only [parse_msg_args, if_pos h3, hsid, hlen]
  · intro hsid
    simp only [parse_msg_args, if_pos h3, hsid]
  · intro hlen
    simp only [parse_msg_args, if_pos h3, hlen]
    cases rustParseNat usizeMax ((splitSp args).getD 1 []) <;> rfl
  · intro sid len hsid hlen
    have h3 : (splitSp args).length ≠ 3 := by omega
    simp only [parse_msg_args, if_neg h3, if_pos h4, hsid, hlen]
  · intro hsid
    have h3 : (splitSp args).length ≠ 3 := by omega
    simp only [parse_msg_args, if_neg h3, if_pos h4, hsid]
  · intro hlen
    have h3 : (splitSp args).length ≠ 3 := by omega
    simp only [parse_msg_args, if_neg h3, if_pos h4, hlen]
    cases rustParseNat usizeMax ((splitSp args).getD 1 []) <;> rfl
  · simp only [parse_msg_args, if_neg h3, if_neg h4]

/-- C4 witness: `f 7 5` decodes without reply subject, `f 7 b 5` with reply
subject `b`, one lone token is a parse error, and a non-numeric
subscription id is a parse error. -/
theorem parse_msg_args_arity_witness :
    parse_msg_args [102, 32, 55, 32, 53] = .ok (.Msg ⟨[102], none, 5, 7⟩) ∧
    parse_msg_args [102, 32, 55, 32, 98, 32, 53] = .ok (.Msg ⟨[102], some [98], 5, 7⟩) ∧
    parse_msg_args [97] = .error .parseError ∧
    parse_msg_args [102, 32, 97, 32, 53] = .error .parseError := by
  refine ⟨?_, ?_, ?_, ?_⟩
  · exact ((parse_msg_args_arity [102, 32, 55, 32, 53]).1 (by decide)).1 7 5
      (by decide) (by decide)
  · exact ((parse_msg_args_arity [102, 32, 55, 32, 98, 32, 53]).2.1 (by decide)).1 7 5
      (by decide) (by decide)
  · exact (parse_msg_args_arity [97]).2.2 (by decide) (by decide)
  · exact ((parse_msg_args_arity [102, 32, 97, 32, 53]).1 (by decide)).2.1 (by decide)

/-- C5: a PONG pops and fulfills exactly the oldest pending waiter when the
queue is nonempty, consecutive PONGs fulfill waiters in their enqueue order,
and a PONG on an empty queue is a no-op that neither fails nor changes
state. -/
theorem process_pong_fifo :
    (∀ log, process_pong [] log = .ok ([], log)) ∧
    (∀ w ws log, w.alive = true →
      process_pong (w :: ws) log = .ok (ws, log ++ [w.id])) ∧
    (∀ ps log, (∀ w ∈ ps, w.alive = true) →
      processPongs ps.length (ps, log) = .ok ([], log ++ ps.map (fun w => w.id))) := by
  refine ⟨fun log => rfl, fun w ws log hw => by simp [process_pong, hw], ?_⟩
  intro ps
  induction ps with
  | nil =>
    intro log h
    simp [processPongs]
  | cons w ws ih =>
    intro log h
    have hw : w.alive = true := h w (List.mem_cons_self w ws)
    have hws : ∀ x ∈ ws, x.alive = true := fun x hx => h x (List.mem_cons_of_mem w hx)
    have hstep : process_pong (w :: ws) log = .ok (ws, log ++ [w.id]) := by
      simp [process_pong, hw]
    show processPongs (ws.length + 1) ((w :: ws), log) = _
    simp only [processPongs, hstep, ih (log ++ [w.id]) hws]
    simp

/-- C5 witness: waiters enqueued in order 1, 2, 3 are fulfilled in order
1, 2, 3, emptying the queue. -/
theorem process_pong_fifo_witness :
    processPongs 3 ([⟨1, true⟩, ⟨2, true⟩, ⟨3, true⟩], []) = .ok ([], [1, 2, 3]) :=
  process_pong_fifo.2.2 [⟨1, true⟩, ⟨2, true⟩, ⟨3, true⟩] [] (by decide)

/-- C6: a message frame whose subscription id is not in the registry is
silently discarded: `process_msg` returns success, delivers nothing, and
still consumes the payload plus the two terminator bytes, so the following
bytes are exactly what remains available. -/
theorem process_msg_unmatched_sid (subs : List (Nat × Chan)) (r : Reader) (args : MsgArgs)
    (hmiss : subsLookup subs args.sid = none)
    (hlen : args.mlen + 2 ≤ r.avail.length) :
    ∃ r2, process_msg subs r args = .ok (none, r2) ∧
      r2.avail = r.avail.drop (args.mlen + 2) := by
  have hav : (readN r args.mlen).2.avail = r.avail.drop args.mlen := readN_avail r args.mlen
  have hl2 : 2 ≤ (readN r args.mlen).2.avail.length := by
    rw [hav, List.length_drop]
    omega
  obtain ⟨a, b, t, hob⟩ : ∃ a b t, (readN r args.mlen).2.avail = a :: b :: t := by
    cases h0 : (readN r args.mlen).2.avail with
    | nil => rw [h0] at hl2; simp at hl2
    | cons a t0 =>
      cases t0 with
      | nil => rw [h0] at hl2; simp at hl2
      | cons b t => exact ⟨a, b, t, rfl⟩
  have hexact : readExact2 (readN r args.mlen).2 =
      .ok ⟨(readN r args.mlen).2.buf.drop 2,
        (readN r args.mlen).2.rest.drop (2 - (readN r args.mlen).2.buf.length)⟩ := by
    unfold readExact2
    simp only [hob]
  refine ⟨⟨(readN r args.mlen).2.buf.drop 2,
    (readN r args.mlen).2.rest.drop (2 - (readN r args.mlen).2.buf.length)⟩, ?_, ?_⟩
  · simp only [process_msg, hexact, hmiss]
  · obtain ⟨_, h2⟩ := readExact2_ok hexact
    rw [h2, hav, List.drop_drop]

/-- C6 witness: a 2-byte payload plus terminator for the unregistered
subscription id 9 is consumed without error, delivering nothing and leaving
the next byte available. -/
theorem process_msg_unmatched_sid_witness :
    ∃ r2, process_msg [(3, ⟨true⟩)] ⟨[1, 2, 13, 10, 80], []⟩ ⟨[115], none, 2, 9⟩ =
      .ok (none, r2) ∧
      r2.avail = (⟨[1, 2, 13, 10, 80], []⟩ : Reader).avail.drop (2 + 2) :=
  process_msg_unmatched_sid [(3, ⟨true⟩)] ⟨[1, 2, 13, 10, 80], []⟩ ⟨[115], none, 2, 9⟩
    (by decide) (by decide)

/-- C7: on a Ping operation the read loop writes the fixed six-byte
`PONG\x0d\x0a` frame to the shared outbound writer and flushes it, and a
write or flush failure terminates the read loop with an I/O error. -/
theorem read_loop_ping (st : LoopState) (r2 : Reader)
    (hp : parse_control_op st.reader = .ok (.Ping, r2)) :
    (st.writer.failing = false →
      readLoopStep st =
        .ok ⟨r2, ⟨st.writer.log ++ pongBytes, true, false⟩, st.subs, st.pongs,
          st.pongLog, st.delivered⟩) ∧
    (st.writer.failing = true → ∀ n, read_loop (n + 1) st = .error .ioError) := by
  constructor
  · intro hok
    simp only [readLoopStep, hp, send_pong, Outbound.writeAll, Outbound.flushW, hok]
    simp
  · intro hfail n
    have hstep : readLoopStep st = .error .ioError := by
      simp only [readLoopStep, hp, send_pong, Outbound.writeAll, hfail]
      simp
    simp only [read_loop, hstep]

/-- C7 witness: a buffered `PING\x0d\x0a` frame makes one loop step append
`PONG\x0d\x0a` to a healthy writer and flush it, and makes the loop return
an I/O error when the writer fails. -/
theorem read_loop_ping_witness :
    readLoopStep ⟨⟨[80, 73, 78, 71, 13, 10], []⟩, ⟨[55], false, false⟩, [], [], [], []⟩ =
      .ok ⟨⟨[], []⟩, ⟨[55] ++ pongBytes, true, false⟩, [], [], [], []⟩ ∧
    read_loop 1 ⟨⟨[80, 73, 78, 71, 13, 10], []⟩, ⟨[], false, true⟩, [], [], [], []⟩ =
      .error .ioError := by
  have h1 := read_loop_ping
    ⟨⟨[80, 73, 78, 71, 13, 10], []⟩, ⟨[55], false, false⟩, [], [], [], []⟩ ⟨[], []⟩
    (by decide)
  have h2 := read_loop_ping
    ⟨⟨[80, 73, 78, 71, 13, 10], []⟩, ⟨[], false, true⟩, [], [], [], []⟩ ⟨[], []⟩
    (by decide)
  exact ⟨h1.1 rfl, h2.2 rfl 0⟩

/-- A list whose first element (if any) fails `p` is unchanged by
`dropWhile p`. -/
theorem dropWhile_of_head_false (p : Nat → Bool) (l : List Nat)
    (h : ∀ x ∈ l.take 1, p x = false) : l.dropWhile p = l := by
  cases l with
  | nil => rfl
  | cons a t => exact List.dropWhile_cons_of_neg (by simp [h a (by simp)])

/-- C8: the error-frame decoder is total: every argument byte sequence
yields a server-error operation whose description is the argument bytes
with all outer single-quote bytes trimmed; a single quote pair around a
body that neither starts nor ends with a quote strips to exactly that body;
and `-ERR \x27Authorization Violation\x27` yields the description
`Authorization Violation`. -/
theorem parse_err_total :
    (∀ args, parse_err args = .Err (trimQuote args)) ∧
    (∀ mid, (∀ x ∈ mid.take 1, x ≠ 39) → (∀ x ∈ mid.reverse.take 1, x ≠ 39) →
      parse_err (39 :: (mid ++ [39])) = .Err mid) ∧
    parse_err [39, 65, 117, 116, 104, 111, 114, 105, 122, 97, 116, 105, 111, 110, 32,
      86, 105, 111, 108, 97, 116, 105, 111, 110, 39] =
      .Err [65, 117, 116, 104, 111, 114, 105, 122, 97, 116, 105, 111, 110, 32, 86, 105,
        111, 108, 97, 116, 105, 111, 110] := by
  refine ⟨fun _ => rfl, ?_, by decide⟩
  intro mid h1 h2
  cases mid with
  | nil => decide
  | cons m mt =>
    have hm : m ≠ 39 := h1 m (by simp)
    unfold parse_err trimQuote
    have e1 : List.dropWhile (fun c => decide (c = 39)) (39 :: m :: (mt ++ [39])) =
        List.dropWhile (fun c => decide (c = 39)) (m :: (mt ++ [39])) := by
      simp [List.dropWhile_cons]
    have hh1 : ∀ x ∈ (m :: (mt ++ [39])).take 1, (fun c => decide (c = 39)) x = false := by
      intro x hx
      simp only [List.take_succ_cons, List.take_zero, List.mem_singleton] at hx
      subst hx
      simp [hm]
    have e2 : List.dropWhile (fun c => decide (c = 39)) (m :: (mt ++ [39])) =
        m :: (mt ++ [39]) := dropWhile_of_head_false _ _ hh1
    have e3 : (m :: (mt ++ [39])).reverse = 39 :: (m :: mt).reverse := by
      rw [show m :: (mt ++ [39]) = (m :: mt) ++ [39] from rfl, List.reverse_append]
      rfl
    have e4 : List.dropWhile (fun c => decide (c = 39)) (39 :: (m :: mt).reverse) =
        List.dropWhile (fun c => decide (c = 39)) ((m :: mt).reverse) := by
      simp [List.dropWhile_cons]
    have hh2 : ∀ x ∈ ((m :: mt).reverse).take 1, (fun c => decide (c = 39)) x = false := by
      intro x hx
      have hx39 := h2 x hx
      simp [hx39]
    have e5 : List.dropWhile (fun c => decide (c = 39)) ((m :: mt).reverse) =
        (m :: mt).reverse := dropWhile_of_head_false _ _ hh2
    rw [List.cons_append, e1, e2, e3, e4, e5, List.reverse_reverse]

/-- C8 witness: a quote pair around the body `ab` strips to exactly `ab`. -/
theorem parse_err_total_witness :
    parse_err (39 :: ([97, 98] ++ [39])) = .Err [97, 98] :=
  parse_err_total.2.1 [97, 98] (by decide) (by decide)

/-- C9: when a registered subscription channel or the oldest queued pong
waiter has lost its receiving end, the unwrapped send makes the read-loop
thread panic instead of erroring or discarding; delivery and pong handling
are non-panicking exactly under the precondition that every reachable
receiver is still alive. -/
theorem dropped_receiver_panics (subs : List (Nat × Chan)) (r : Reader) (args : MsgArgs)
    (pongs : List Waiter) (log : List Nat) :
    (∀ ch, subsLookup subs args.sid = some ch → ch.alive = false →
      args.mlen + 2 ≤ r.avail.length → process_msg subs r args = .error .panicked) ∧
    (∀ w ws, pongs = w :: ws → w.alive = false →
      process_pong pongs log = .error .panicked) ∧
    ((∀ sid ch, subsLookup subs sid = some ch → ch.alive = true) →
      process_msg subs r args ≠ .error .panicked) ∧
    ((∀ w ∈ pongs, w.alive = true) → process_pong pongs log ≠ .error .panicked) := by
  refine ⟨?_, ?_, ?_, ?_⟩
  · intro ch hch hdead hlen
    have hav : (readN r args.mlen).2.avail = r.avail.drop args.mlen := readN_avail r args.mlen
    have hl2 : 2 ≤ (readN r args.mlen).2.avail.length := by
      rw [hav, List.length_drop]
      omega
    obtain ⟨a, b, t, hob⟩ : ∃ a b t, (readN r args.mlen).2.avail = a :: b :: t := by
      cases h0 : (readN r args.mlen).2.avail with
      | nil => rw [h0] at hl2; simp at hl2
      | cons a t0 =>
        cases t0 with
        | nil => rw [h0] at hl2; simp at hl2
        | cons b t => exact ⟨a, b, t, rfl⟩
    have hexact : readExact2 (readN r args.mlen).2 =
        .ok ⟨(readN r args.mlen).2.buf.drop 2,
          (readN r args.mlen).2.rest.drop (2 - (readN r args.mlen).2.buf.length)⟩ := by
      unfold readExact2
      simp only [hob]
    simp only [process_msg, hexact, hch, hdead]
    simp
  · intro w ws hp hw
    rw [hp]
    simp [process_pong, hw]
  · intro hall
    cases he : readExact2 (readN r args.mlen).2 with
    | error e =>
      simp only [process_msg, he]
      have hio := readExact2_error he
      rw [hio]
      simp
    | ok r3 =>
      simp only [process_msg, he]
      cases hl : subsLookup subs args.sid with
      | none => simp [hl]
      | some ch =>
        have := hall args.sid ch hl
        simp [hl, this]
  · intro h
    cases pongs with
    | nil => simp [process_pong]
    | cons w ws =>
      have hw := h w (List.mem_cons_self w ws)
      simp [process_pong, hw]

/-- C9 witness: a dead registered receiver makes message delivery panic, a
dead oldest pong waiter makes pong handling panic, and with live receivers
neither panics. -/
theorem dropped_receiver_panics_witness :
    process_msg [(5, ⟨false⟩)] ⟨[104, 13, 10, 10, 105, 13, 10], []⟩ ⟨[102], none, 5, 5⟩ =
      .error .panicked ∧
    process_pong [⟨1, false⟩] [] = .error .panicked ∧
    process_msg [] ⟨[104, 13, 10, 10, 105, 13, 10], []⟩ ⟨[102], none, 5, 5⟩ ≠
      .error .panicked ∧
    process_pong [] [] ≠ .error .panicked := by
  refine ⟨?_, ?_, ?_, ?_⟩
  · exact (dropped_receiver_panics [(5, ⟨false⟩)] ⟨[104, 13, 10, 10, 105, 13, 10], []⟩
      ⟨[102], none, 5, 5⟩ [] []).1 ⟨false⟩ (by decide) (by decide) (by decide)
  · exact (dropped_receiver_panics [] ⟨[], []⟩ ⟨[], none, 0, 0⟩ [⟨1, false⟩] []).2.1
      ⟨1, false⟩ [] rfl rfl
  · exact (dropped_receiver_panics [] ⟨[104, 13, 10, 10, 105, 13, 10], []⟩
      ⟨[102], none, 5, 5⟩ [] []).2.2.1
      (fun sid ch hch => absurd hch (by simp [subsLookup]))
  · exact (dropped_receiver_panics [] ⟨[], []⟩ ⟨[], none, 0, 0⟩ [] []).2.2.2 (by decide)

/-- A token of one or more digit bytes parses exactly when its value fits
the type maximum. -/
theorem rustParseNat_digits (max : Nat) (tok : List Nat) (hd : tok.all isDigitB = true)
    (hne : tok ≠ []) :
    rustParseNat max tok = if digitsVal tok ≤ max then some (digitsVal tok) else none := by
  obtain ⟨c, t, rfl⟩ : ∃ c t, tok = c :: t := by
    cases tok with
    | nil => exact absurd rfl hne
    | cons c t => exact ⟨c, t, rfl⟩
  have hc : isDigitB c = true := by
    rw [List.all_cons] at hd
    exact (Bool.and_eq_true_iff.mp hd).1
  have hc43 : ¬ (c :: t).headD 0 = 43 := by
    simp only [List.headD_cons]
    intro hcc
    rw [hcc] at hc
    exact absurd hc (by decide)
  simp only [rustParseNat, if_neg hc43]
  rw [if_neg (by simp : ¬ (c :: t) = []), if_pos hd]

/-- C10: the declared length is parsed as `u32` while the subscription id is
parsed as the pointer-sized `usize`: a length token that is a valid
non-negative integer greater than `2^32 - 1` makes decoding fail with a
parse error (in both the 3- and 4-token forms), while the subscription-id
parser accepts every digit token whose value fits in 64 bits. -/
theorem mlen_parsed_as_u32 (args : List Nat) :
    ((splitSp args).length = 3 → ((splitSp args).getD 2 []).all isDigitB = true →
      (splitSp args).getD 2 [] ≠ [] → u32Max < digitsVal ((splitSp args).getD 2 []) →
      parse_msg_args args = .error .parseError) ∧
    ((splitSp args).length = 4 → ((splitSp args).getD 3 []).all isDigitB = true →
      (splitSp args).getD 3 [] ≠ [] → u32Max < digitsVal ((splitSp args).getD 3 []) →
      parse_msg_args args = .error .parseError) ∧
    (∀ tok, tok.all isDigitB = true → tok ≠ [] → digitsVal tok ≤ usizeMax →
      rustParseNat usizeMax tok = some (digitsVal tok)) := by
  refine ⟨?_, ?_, ?_⟩
  · intro h3 hdall hdne hbig
    have hnone : rustParseNat u32Max ((splitSp args).getD 2 []) = none := by
      rw [rustParseNat_digits _ _ hdall hdne, if_neg (Nat.not_le.mpr hbig)]
    simp only [parse_msg_args, if_pos h3, hnone]
    cases rustParseNat usizeMax ((splitSp args).getD 1 []) <;> rfl
  · intro h4 hdall hdne hbig
    have hnone : rustParseNat u32Max ((splitSp args).getD 3 []) = none := by
      rw [rustParseNat_digits _ _ hdall hdne, if_neg (Nat.not_le.mpr hbig)]
    have h3 : (splitSp args).length ≠ 3 := by omega
    simp only [parse_msg_args, if_neg h3, if_pos h4, hnone]
    cases rustParseNat usizeMax ((splitSp args).getD 1 []) <;> rfl
  · intro tok hd hne hle
    rw [rustParseNat_digits _ _ hd hne, if_pos hle]

/-- C10 witness: the header `s 1 4294967296` is rejected because the length
token exceeds `u32`, while the same token is accepted as a subscription
id. -/
theorem mlen_parsed_as_u32_witness :
    parse_msg_args [115, 32, 49, 32, 52, 50, 57, 52, 57, 54, 55, 50, 57, 54] =
      .error .parseError ∧
    rustParseNat usizeMax [52, 50, 57, 52, 57, 54, 55, 50, 57, 54] =
      some 4294967296 := by
  constructor
  · exact (mlen_parsed_as_u32 [115, 32, 49, 32, 52, 50, 57, 52, 57, 54, 55, 50, 57, 54]).1
      (by decide) (by decide) (by decide) (by decide)
  · have h := (mlen_parsed_as_u32 []).2.2 [52, 50, 57, 52, 57, 54, 55, 50, 57, 54]
      (by decide) (by decide) (by decide)
    exact h.trans (by decide)

end Nats
